import Mathlib

/-!
Verification of the scoring engine of the `jared40th` golf match-play
repository.  The development shallowly embeds the pure scoring functions:
the GHIN course-handicap calculator (`src/functions/src/ghin.ts`), the
Jekyll & Hyde and Ham & Egg badge calculators (helper implementations in
`src/functions/src/jekyllAndHyde.test.ts` and
`src/functions/src/hamAndEgg.test.ts`), and the match summarizer
(`matchScoring.ts`, whose implementation file is not among the sources;
those definitions are modelled from the specification, as their doc
comments state).  JS numbers are modelled as rationals, nullable fields as
`Option`, and the string-keyed `holes` document map as an association
list.
-/

namespace Jared40th

/-- JS `Math.round`: rounds to the nearest integer, halves toward
positive infinity (`Math.round(-1.5) = -1`). -/
def jsRound (q : ℚ) : ℤ := ⌊q + 1/2⌋

/-- Modelled from the spec: `DEFAULT_COURSE_PAR` is imported by `ghin.ts`
from `constants.js`, which is absent from the sources; the spec fixes the
default par at 72. -/
def DEFAULT_COURSE_PAR : ℚ := 72

/-- Embedding of `calculateCourseHandicap` (src/functions/src/ghin.ts).
The source runs `slopeRating` and `par` through `Number(x) || default`,
which sends the falsy numeric 0 to the default as well; a provided
(numeric) `courseRating` is kept as is, an absent one falls back to the
coerced par. -/
def calculateCourseHandicap (handicapIndex : ℚ) (slopeRating : ℚ := 113)
    (courseRating : Option ℚ := none) (par : ℚ := DEFAULT_COURSE_PAR) : ℤ :=
  let hiNum := handicapIndex
  let slope := if slopeRating = 0 then 113 else slopeRating
  let parNum := if par = 0 then DEFAULT_COURSE_PAR else par
  let rating := match courseRating with
    | some r => r
    | none => parNum
  jsRound (hiNum * (slope / 113) + (rating - parNum))

/-- The spec's course-handicap formula, taken verbatim from its words:
`round(handicapIndex × (slope / 113) + (rating − par))`, with `round`
read as round-half-up (one of the two roundings the spec allows, and the
one `Math.round` implements). -/
def spec_courseHandicap (handicapIndex slope rating par : ℚ) : ℤ :=
  jsRound (handicapIndex * (slope / 113) + (rating - par))

/-- Claim C6, counterexample: at the numeric input slope = 0 the code
coerces the slope to 113 (JS `Number(0) || 113`), so it does not compute
the spec formula with slope 0. -/
theorem calculateCourseHandicap_slope_zero_cex :
    calculateCourseHandicap 113 0 (some 72.5) 72 ≠ spec_courseHandicap 113 0 72.5 72 := by
  have h1 : calculateCourseHandicap 113 0 (some 72.5) 72 = 114 := by
    norm_num [calculateCourseHandicap, jsRound, DEFAULT_COURSE_PAR]
  have h2 : spec_courseHandicap 113 0 72.5 72 = 1 := by
    norm_num [spec_courseHandicap, jsRound]
  rw [h1, h2]
  norm_num

/-- Claim C6 (amended): for every numeric handicap index and course
rating and every nonzero slope and nonzero par, `calculateCourseHandicap`
returns `round(handicapIndex × (slope/113) + (rating − par))` rounded
half-up; a zero (falsy) slope or par is coerced to its default exactly
like a non-numeric input.  In particular index 10.5, slope 130, rating
72.5, par 72 gives 13. -/
theorem calculateCourseHandicap_formula (hi slope rating par : ℚ)
    (hs : slope ≠ 0) (hp : par ≠ 0) :
    calculateCourseHandicap hi slope (some rating) par
      = spec_courseHandicap hi slope rating par ∧
    calculateCourseHandicap 10.5 130 (some 72.5) 72 = 13 := by
  refine ⟨?_, by norm_num [calculateCourseHandicap, jsRound, DEFAULT_COURSE_PAR]⟩
  simp [calculateCourseHandicap, spec_courseHandicap, hs, hp]

/-- Claim C6, witness: the amended formula theorem applied at the spec's
own worked example. -/
theorem calculateCourseHandicap_formula_witness :
    calculateCourseHandicap 10.5 130 (some 72.5) 72
      = spec_courseHandicap 10.5 130 72.5 72 ∧
    calculateCourseHandicap 10.5 130 (some 72.5) 72 = 13 :=
  ⟨(calculateCourseHandicap_formula 10.5 130 72.5 72 (by norm_num) (by norm_num)).1,
   (calculateCourseHandicap_formula 10.5 130 72.5 72 (by norm_num) (by norm_num)).2⟩

/-- Course reference data (spec §3): hole number, par and difficulty rank. -/
structure CourseHole where
  number : ℕ
  par : ℕ
  hcpIndex : ℕ
deriving DecidableEq

/-- Embedding of `calculateStrokesReceived` (src/functions/src/ghin.ts):
sort the course holes ascending by `hcpIndex`, clamp
`Math.round(courseHandicap)` to `[0, 18]`, and set a stroke at position
`number - 1` for each of the first `strokeCount` sorted holes, starting
from an all-zero array of 18 entries. -/
def calculateStrokesReceived (courseHandicap : ℚ) (courseHoles : List CourseHole) : List ℕ :=
  let strokes : List ℕ := List.replicate 18 0
  let sortedByDifficulty := courseHoles.mergeSort (fun a b => decide (a.hcpIndex ≤ b.hcpIndex))
  let strokeCount := (min (max 0 (jsRound courseHandicap)) 18).toNat
  (sortedByDifficulty.take strokeCount).foldl
    (fun s h => s.set (h.number - 1) 1) strokes

theorem jsRound_intCast (n : ℤ) : jsRound (n : ℚ) = n := by
  rw [jsRound, Int.floor_int_add]
  norm_num

theorem length_foldl_setStroke (hs : List CourseHole) :
    ∀ (l : List ℕ),
      (hs.foldl (fun s h => s.set (h.number - 1) 1) l).length = l.length := by
  induction hs with
  | nil => intro l; rfl
  | cons h t ih =>
    intro l
    rw [List.foldl_cons, ih, List.length_set]

theorem getD_foldl_setStroke (hs : List CourseHole) :
    ∀ (l : List ℕ), 18 ≤ l.length → ∀ p, p < 18 →
      (hs.foldl (fun s h => s.set (h.number - 1) 1) l).getD p 0
        = if ∃ h ∈ hs, h.number - 1 = p then 1 else l.getD p 0 := by
  induction hs with
  | nil => intro l _ p _; simp
  | cons h t ih =>
    intro l hl p hp
    rw [List.foldl_cons, ih (l.set (h.number - 1) 1) (by simpa using hl) p hp]
    have hset : (l.set (h.number - 1) 1).getD p 0
        = if h.number - 1 = p then 1 else l.getD p 0 := by
      rw [List.getD_eq_getElem?_getD, List.getElem?_set]
      by_cases hq : h.number - 1 = p
      · simp [hq, show p < l.length by omega]
      · simp [hq, List.getD_eq_getElem?_getD]
    rw [hset]
    simp only [List.exists_mem_cons_iff]
    by_cases htl : ∃ x ∈ t, x.number - 1 = p
    · simp [htl]
    · by_cases hh : h.number - 1 = p <;> simp [htl, hh]

/-- The merge-sorted course holes, listed by ascending difficulty rank; when
the `hcpIndex` values are exactly `1..18`, the sorted ranks are `1..18` in
order. -/
theorem mergeSort_hcp_map (courseHoles : List CourseHole)
    (hhcp : (courseHoles.map CourseHole.hcpIndex).Perm (List.range' 1 18)) :
    (courseHoles.mergeSort (fun a b => decide (a.hcpIndex ≤ b.hcpIndex))).map CourseHole.hcpIndex
      = List.range' 1 18 := by
  have hp := @List.sorted_mergeSort CourseHole
    (fun a b : CourseHole => decide (a.hcpIndex ≤ b.hcpIndex))
    (fun a b c hab hbc => by
      simp only [decide_eq_true_iff] at hab hbc ⊢
      omega)
    (fun a b => by
      simp only [Bool.or_eq_true, decide_eq_true_iff]
      omega)
    courseHoles
  have hsorted : List.Sorted (· ≤ ·)
      ((courseHoles.mergeSort (fun a b => decide (a.hcpIndex ≤ b.hcpIndex))).map
        CourseHole.hcpIndex) := by
    rw [List.Sorted, List.pairwise_map]
    exact hp.imp (fun hab => by simpa using hab)
  exact List.eq_of_perm_of_sorted
    (((List.mergeSort_perm courseHoles _).map _).trans hhcp)
    hsorted (List.pairwise_le_range' 1 18)

theorem mem_take_mergeSort (courseHoles : List CourseHole)
    (hhcp : (courseHoles.map CourseHole.hcpIndex).Perm (List.range' 1 18))
    (mm : ℕ) (hmm : mm ≤ 18) (h : CourseHole) :
    h ∈ (courseHoles.mergeSort (fun a b => decide (a.hcpIndex ≤ b.hcpIndex))).take mm
      ↔ h ∈ courseHoles ∧ h.hcpIndex ≤ mm := by
  set s := courseHoles.mergeSort (fun a b => decide (a.hcpIndex ≤ b.hcpIndex)) with hs
  have hmap := mergeSort_hcp_map courseHoles hhcp
  rw [← hs] at hmap
  have hclen : courseHoles.length = 18 := by
    have := hhcp.length_eq
    simpa using this
  have hslen : s.length = 18 := by
    rw [hs, List.length_mergeSort, hclen]
  have hidx : ∀ i, ∀ hi : i < s.length, (s.get ⟨i, hi⟩).hcpIndex = 1 + i := by
    intro i hi
    have h1 : (s.map CourseHole.hcpIndex)[i]? = (List.range' 1 18)[i]? := by
      rw [hmap]
    rw [List.getElem?_eq_getElem (by simpa using hi),
      List.getElem?_eq_getElem (by rw [List.length_range']; omega)] at h1
    have h2 := Option.some.inj h1
    rw [List.getElem_map, List.getElem_range'] at h2
    rw [List.get_eq_getElem]
    simpa using h2
  constructor
  · intro hmem
    obtain ⟨i, hi, hieq⟩ := List.mem_iff_getElem.mp hmem
    have hi2 : i < s.length := by
      rw [List.length_take] at hi
      omega
    have himm : i < mm := by
      rw [List.length_take] at hi
      omega
    have hgt : (s.take mm)[i] = s[i] := List.getElem_take s
    have hmem2 : h ∈ s := by
      rw [← hieq, hgt]
      exact List.getElem_mem hi2
    refine ⟨((List.mergeSort_perm courseHoles _).mem_iff).mp hmem2, ?_⟩
    have hhi : (s[i]).hcpIndex = 1 + i := by simpa using hidx i hi2
    rw [← hieq, hgt]
    omega
  · rintro ⟨hmem, hle⟩
    have hmem2 : h ∈ s := ((List.mergeSort_perm courseHoles _).mem_iff).mpr hmem
    obtain ⟨i, hi, hieq⟩ := List.mem_iff_getElem.mp hmem2
    have hix : h.hcpIndex = 1 + i := by
      have hhi : (s[i]).hcpIndex = 1 + i := by simpa using hidx i hi
      rw [← hieq]
      exact hhi
    have hi2 : i < (s.take mm).length := by
      rw [List.length_take]
      omega
    exact List.mem_iff_getElem.mpr ⟨i, hi2, by rw [List.getElem_take s]; exact hieq⟩

/-- Claim C7: for every integer course handicap `n` and every full set of
18 course holes whose hole numbers and `hcpIndex` values each cover 1-18
exactly once, `calculateStrokesReceived` returns an 18-entry array with a
1 exactly at position `number - 1` of each of the `m` hardest (lowest
`hcpIndex`) holes, `m` being `n` clamped to `[0, 18]`; negative handicaps
give all zeros and handicaps of 18 or more give all ones. -/
theorem calculateStrokesReceived_hardest (n : ℤ) (courseHoles : List CourseHole)
    (hnum : (courseHoles.map CourseHole.number).Perm (List.range' 1 18))
    (hhcp : (courseHoles.map CourseHole.hcpIndex).Perm (List.range' 1 18)) :
    (calculateStrokesReceived (n : ℚ) courseHoles).length = 18 ∧
    (∀ p, p < 18 →
      (calculateStrokesReceived (n : ℚ) courseHoles).getD p 0
        = if ∃ h ∈ courseHoles,
              h.number = p + 1 ∧ h.hcpIndex ≤ (min (max 0 n) 18).toNat
          then 1 else 0) ∧
    (n < 0 → calculateStrokesReceived (n : ℚ) courseHoles = List.replicate 18 0) ∧
    (18 ≤ n → calculateStrokesReceived (n : ℚ) courseHoles = List.replicate 18 1) := by
  set M : ℕ := (min (max 0 n) 18).toNat with hMdef
  have hM : M ≤ 18 := by omega
  have hunfold : calculateStrokesReceived (n : ℚ) courseHoles
      = ((courseHoles.mergeSort (fun a b => decide (a.hcpIndex ≤ b.hcpIndex))).take M).foldl
          (fun s h => s.set (h.number - 1) 1) (List.replicate 18 0) := by
    simp only [calculateStrokesReceived, jsRound_intCast]
  have hnum_mem : ∀ h ∈ courseHoles, 1 ≤ h.number ∧ h.number ≤ 18 := by
    intro h hm
    have h1 : h.number ∈ courseHoles.map CourseHole.number :=
      List.mem_map.mpr ⟨h, hm, rfl⟩
    have h2 := hnum.mem_iff.mp h1
    rw [List.mem_range'_1] at h2
    omega
  have hhcp_mem : ∀ h ∈ courseHoles, 1 ≤ h.hcpIndex ∧ h.hcpIndex ≤ 18 := by
    intro h hm
    have h1 : h.hcpIndex ∈ courseHoles.map CourseHole.hcpIndex :=
      List.mem_map.mpr ⟨h, hm, rfl⟩
    have h2 := hhcp.mem_iff.mp h1
    rw [List.mem_range'_1] at h2
    omega
  have hlen : (calculateStrokesReceived (n : ℚ) courseHoles).length = 18 := by
    rw [hunfold, length_foldl_setStroke, List.length_replicate]
  have hchar : ∀ p, p < 18 →
      (calculateStrokesReceived (n : ℚ) courseHoles).getD p 0
        = if ∃ h ∈ courseHoles, h.number = p + 1 ∧ h.hcpIndex ≤ M
          then 1 else 0 := by
    intro p hp
    rw [hunfold, getD_foldl_setStroke _ _ (by simp) p hp]
    have hcond : (∃ h ∈ (courseHoles.mergeSort
          (fun a b => decide (a.hcpIndex ≤ b.hcpIndex))).take M, h.number - 1 = p)
        ↔ (∃ h ∈ courseHoles, h.number = p + 1 ∧ h.hcpIndex ≤ M) := by
      constructor
      · rintro ⟨h, hmem, hnum1⟩
        have hm := (mem_take_mergeSort courseHoles hhcp M hM h).mp hmem
        have hge := (hnum_mem h hm.1).1
        exact ⟨h, hm.1, by omega, hm.2⟩
      · rintro ⟨h, hmem, hnum1, hle⟩
        exact ⟨h, (mem_take_mergeSort courseHoles hhcp M hM h).mpr ⟨hmem, hle⟩, by omega⟩
    simp only [hcond]
    have hrep : (List.replicate 18 (0 : ℕ)).getD p 0 = 0 := by
      rw [List.getD_eq_getElem?_getD, List.getElem?_replicate]
      simp [hp]
    rw [hrep]
  refine ⟨hlen, hchar, ?_, ?_⟩
  · intro hneg
    have hM0 : M = 0 := by omega
    rw [hunfold, hM0]
    simp
  · intro h18
    have hM18 : M = 18 := by omega
    apply List.ext_getElem
    · rw [hlen, List.length_replicate]
    · intro p h1 h2
      have hp : p < 18 := by
        rw [List.length_replicate] at h2
        exact h2
      have hgd : (calculateStrokesReceived (n : ℚ) courseHoles).getD p 0
          = (calculateStrokesReceived (n : ℚ) courseHoles)[p] := by
        rw [List.getD_eq_getElem?_getD, List.getElem?_eq_getElem h1]
        rfl
      have hex : ∃ h ∈ courseHoles, h.number = p + 1 ∧ h.hcpIndex ≤ M := by
        have hmem : p + 1 ∈ courseHoles.map CourseHole.number := by
          apply hnum.mem_iff.mpr
          rw [List.mem_range'_1]
          omega
        obtain ⟨h, hm, hnum1⟩ := List.mem_map.mp hmem
        exact ⟨h, hm, hnum1, by rw [hM18]; exact (hhcp_mem h hm).2⟩
      have := hchar p hp
      rw [hgd, if_pos hex] at this
      rw [this, List.getElem_replicate]

/-- The test course of the vsAll simulation test suite: 18 holes whose
numbers and difficulty ranks each cover 1-18 exactly once. -/
def testCourseHoles : List CourseHole :=
  [⟨1, 4, 5⟩, ⟨2, 3, 17⟩, ⟨3, 5, 3⟩, ⟨4, 4, 11⟩, ⟨5, 4, 7⟩, ⟨6, 4, 9⟩,
   ⟨7, 3, 15⟩, ⟨8, 5, 1⟩, ⟨9, 4, 13⟩, ⟨10, 4, 6⟩, ⟨11, 3, 18⟩, ⟨12, 5, 2⟩,
   ⟨13, 4, 10⟩, ⟨14, 4, 8⟩, ⟨15, 3, 16⟩, ⟨16, 4, 12⟩, ⟨17, 5, 4⟩, ⟨18, 4, 14⟩]

/-- Claim C7, witness: the strokes-received theorem applied to the test
course at course handicap 5, read at hole 8 (difficulty rank 1, so it
holds a stroke). -/
theorem calculateStrokesReceived_hardest_witness :
    (calculateStrokesReceived ((5 : ℤ) : ℚ) testCourseHoles).getD 7 0 = 1 := by
  rw [(calculateStrokesReceived_hardest 5 testCourseHoles (by decide) (by decide)).2.1 7
    (by norm_num)]
  decide

/-- Per-hole two-player scores for the Jekyll & Hyde calculator
(src/functions/src/jekyllAndHyde.test.ts): raw scores plus optional 0/1
strokes (strokes are used by the best-ball/net variant only). -/
structure HoleScore where
  player0 : ℤ
  player1 : ℤ
  stroke0 : Option ℕ := none
  stroke1 : Option ℕ := none
deriving DecidableEq

/-- Per-hole two-player gross scores for the shamble variant. -/
structure GrossHoleScore where
  player0 : ℤ
  player1 : ℤ
deriving DecidableEq

/-- Result record of the Jekyll & Hyde calculators. -/
structure JekyllAndHydeResult where
  bestBallTotal : ℤ
  worstBallTotal : ℤ
  isJekyllAndHyde : Bool
deriving DecidableEq

/-- Embedding of `calculateJekyllAndHydeNet`
(src/functions/src/jekyllAndHyde.test.ts): accumulate, over the holes,
the better (min) and worse (max) of the two players' net scores
(`gross − (stroke || 0)`), and award the badge when the worst-ball total
exceeds the best-ball total by at least 24. -/
def calculateJekyllAndHydeNet (holes : List HoleScore) : JekyllAndHydeResult :=
  let totals := holes.foldl
    (fun (acc : ℤ × ℤ) (hole : HoleScore) =>
      let net0 := hole.player0 - (hole.stroke0.getD 0 : ℤ)
      let net1 := hole.player1 - (hole.stroke1.getD 0 : ℤ)
      (acc.1 + min net0 net1, acc.2 + max net0 net1))
    (0, 0)
  ⟨totals.1, totals.2, decide (24 ≤ totals.2 - totals.1)⟩

/-- Embedding of `calculateJekyllAndHydeGross`
(src/functions/src/jekyllAndHyde.test.ts): same accumulation on raw
gross scores, no strokes. -/
def calculateJekyllAndHydeGross (holes : List GrossHoleScore) : JekyllAndHydeResult :=
  let totals := holes.foldl
    (fun (acc : ℤ × ℤ) (hole : GrossHoleScore) =>
      (acc.1 + min hole.player0 hole.player1, acc.2 + max hole.player0 hole.player1))
    (0, 0)
  ⟨totals.1, totals.2, decide (24 ≤ totals.2 - totals.1)⟩

theorem jekyllNet_totals (holes : List HoleScore) : ∀ acc : ℤ × ℤ,
    holes.foldl
      (fun (acc : ℤ × ℤ) (hole : HoleScore) =>
        let net0 := hole.player0 - (hole.stroke0.getD 0 : ℤ)
        let net1 := hole.player1 - (hole.stroke1.getD 0 : ℤ)
        (acc.1 + min net0 net1, acc.2 + max net0 net1)) acc
      = (acc.1 + (holes.map (fun hole =>
            min (hole.player0 - (hole.stroke0.getD 0 : ℤ))
              (hole.player1 - (hole.stroke1.getD 0 : ℤ)))).sum,
         acc.2 + (holes.map (fun hole =>
            max (hole.player0 - (hole.stroke0.getD 0 : ℤ))
              (hole.player1 - (hole.stroke1.getD 0 : ℤ)))).sum) := by
  induction holes with
  | nil => intro acc; simp
  | cons h t ih =>
    intro acc
    rw [List.foldl_cons, ih, List.map_cons, List.map_cons, List.sum_cons, List.sum_cons]
    refine Prod.ext ?_ ?_ <;> simp <;> ring

theorem jekyllGross_totals (holes : List GrossHoleScore) : ∀ acc : ℤ × ℤ,
    holes.foldl
      (fun (acc : ℤ × ℤ) (hole : GrossHoleScore) =>
        (acc.1 + min hole.player0 hole.player1, acc.2 + max hole.player0 hole.player1)) acc
      = (acc.1 + (holes.map (fun hole => min hole.player0 hole.player1)).sum,
         acc.2 + (holes.map (fun hole => max hole.player0 hole.player1)).sum) := by
  induction holes with
  | nil => intro acc; simp
  | cons h t ih =>
    intro acc
    rw [List.foldl_cons, ih, List.map_cons, List.map_cons, List.sum_cons, List.sum_cons]
    refine Prod.ext ?_ ?_ <;> simp <;> ring

/-- Claim C8: both Jekyll & Hyde variants award the badge exactly when
the sum of the per-hole worse (max) scores exceeds the sum of the
per-hole better (min) scores by at least 24; at the boundary, a
difference of 23 fails while 24 and 25 succeed. -/
theorem jekyllAndHyde_threshold :
    (∀ holes : List HoleScore,
      (calculateJekyllAndHydeNet holes).isJekyllAndHyde = true
        ↔ 24 ≤ (holes.map (fun hole =>
              max (hole.player0 - (hole.stroke0.getD 0 : ℤ))
                (hole.player1 - (hole.stroke1.getD 0 : ℤ)))).sum
            - (holes.map (fun hole =>
              min (hole.player0 - (hole.stroke0.getD 0 : ℤ))
                (hole.player1 - (hole.stroke1.getD 0 : ℤ)))).sum) ∧
    (∀ holes : List GrossHoleScore,
      (calculateJekyllAndHydeGross holes).isJekyllAndHyde = true
        ↔ 24 ≤ (holes.map (fun hole => max hole.player0 hole.player1)).sum
            - (holes.map (fun hole => min hole.player0 hole.player1)).sum) ∧
    (calculateJekyllAndHydeNet
      (List.replicate 5 ⟨4, 6, none, none⟩ ++ List.replicate 13 ⟨4, 5, none, none⟩)).isJekyllAndHyde
      = false ∧
    (calculateJekyllAndHydeNet
      (List.replicate 6 ⟨4, 6, none, none⟩ ++ List.replicate 12 ⟨4, 5, none, none⟩)).isJekyllAndHyde
      = true ∧
    (calculateJekyllAndHydeNet
      (List.replicate 7 ⟨4, 6, none, none⟩ ++ List.replicate 11 ⟨4, 5, none, none⟩)).isJekyllAndHyde
      = true := by
  refine ⟨?_, ?_, by decide, by decide, by decide⟩
  · intro holes
    simp only [calculateJekyllAndHydeNet, jekyllNet_totals holes (0, 0)]
    simp [decide_eq_true_iff]
  · intro holes
    simp only [calculateJekyllAndHydeGross, jekyllGross_totals holes (0, 0)]
    simp [decide_eq_true_iff]

/-- Embedding of `isHamAndEgg` (src/functions/src/hamAndEgg.test.ts): one
teammate at or under par (relative score ≤ 0) while the other is at bogey
or worse (relative score ≥ 1), in either order. -/
def isHamAndEgg (player1VsPar player2VsPar : ℤ) : Bool :=
  (decide (player1VsPar ≤ 0) && decide (1 ≤ player2VsPar)) ||
  (decide (player2VsPar ≤ 0) && decide (1 ≤ player1VsPar))

/-- Claim C9: the Ham & Egg predicate holds exactly when one relative
score is ≤ 0 and the other is ≥ +1, in either order; a struggling partner
at exactly +1 (bogey) qualifies, while two scores at or under par, or two
scores over par, never do. -/
theorem isHamAndEgg_char :
    (∀ a b : ℤ, isHamAndEgg a b = true ↔ ((a ≤ 0 ∧ 1 ≤ b) ∨ (b ≤ 0 ∧ 1 ≤ a))) ∧
    isHamAndEgg 0 1 = true ∧
    (∀ a b : ℤ, a ≤ 0 → b ≤ 0 → isHamAndEgg a b = false) ∧
    (∀ a b : ℤ, 1 ≤ a → 1 ≤ b → isHamAndEgg a b = false) := by
  refine ⟨?_, by decide, ?_, ?_⟩
  · intro a b
    simp [isHamAndEgg]
  · intro a b ha hb
    simp only [isHamAndEgg, Bool.or_eq_false_iff, Bool.and_eq_false_iff]
    constructor <;> [right; right] <;> simp <;> omega
  · intro a b ha hb
    simp only [isHamAndEgg, Bool.or_eq_false_iff, Bool.and_eq_false_iff]
    constructor <;> [left; left] <;> simp <;> omega

/-- Claim C9, witness: the both-good and both-bad clauses applied at
birdie/birdie and bogey/double-bogey. -/
theorem isHamAndEgg_char_witness :
    isHamAndEgg (-1) (-1) = false ∧ isHamAndEgg 1 2 = false :=
  ⟨isHamAndEgg_char.2.2.1 (-1) (-1) (by norm_num) (by norm_num),
   isHamAndEgg_char.2.2.2 1 2 (by norm_num) (by norm_num)⟩

/-- The four match-play formats (src/unnamed/part_000, `RoundFormat`). -/
inductive RoundFormat
  | twoManBestBall
  | twoManShamble
  | twoManScramble
  | singles
deriving DecidableEq

/-- A side of a match. -/
inductive Team
  | teamA
  | teamB
deriving DecidableEq

/-- A hole decision or a match winner: a side, or "AS" (all square). -/
inductive HoleWinner
  | teamA
  | teamB
  | AS
deriving DecidableEq

/-- The winner value a leading side corresponds to. -/
def Team.toWinner : Team → HoleWinner
  | .teamA => .teamA
  | .teamB => .teamB

/-- A participant (src/unnamed/part_000, `PlayerInMatch`): player id plus
the per-hole strokes-received array. -/
structure PlayerInMatch where
  playerId : String
  strokesReceived : List ℕ
deriving DecidableEq

/-- Modelled from the spec (§3 Hole Input): per-hole raw scores, with the
shape depending on the format; every field is nullable and a hole is
complete only when every field its format requires is present.  The
team-format entries are exactly-2-element arrays of nullable numbers,
modelled as a pair of options; optional drive fields play no part in any
hole decision and are omitted. -/
structure HoleInput where
  teamAPlayerGross : Option ℤ := none
  teamBPlayerGross : Option ℤ := none
  teamAGross : Option ℤ := none
  teamBGross : Option ℤ := none
  teamAPlayersGross : Option (Option ℤ × Option ℤ) := none
  teamBPlayersGross : Option (Option ℤ × Option ℤ) := none
deriving DecidableEq

/-- Modelled from the spec (§6): a stored hole entry; a malformed entry
(no `input` object) counts as no input. -/
structure HoleEntry where
  input : Option HoleInput := none
deriving DecidableEq

/-- Modelled from the spec (§6): a match record — the two ordered player
lists and the `holes` map from hole-number string to entry, embedded as
an association list over string keys. -/
structure MatchData where
  teamAPlayers : List PlayerInMatch
  teamBPlayers : List PlayerInMatch
  holes : List (String × HoleEntry)
deriving DecidableEq

/-- Modelled from the spec (§4.1, §6): the stroke (0 or 1) the `idx`-th
player of a team receives on hole `k`, with a missing player or a short
array treated as an all-zero placeholder. -/
def strokeFor (players : List PlayerInMatch) (idx : ℕ) (k : ℕ) : ℕ :=
  match players.get? idx with
  | some p => p.strokesReceived.getD (k - 1) 0
  | none => 0

/-- Modelled from the spec (§6): read hole `k`'s input from the
string-keyed `holes` map; a missing entry or a malformed entry is no
input. -/
def lookupHole (m : MatchData) (k : ℕ) : Option HoleInput :=
  match m.holes.lookup (toString k) with
  | some entry => entry.input
  | none => none

/-- Modelled from the spec (§4.3, singles): net = gross − stroke for each
side's single player; lower net wins, equal nets halve, a missing gross
gives no decision. -/
def decideSingles (m : MatchData) (k : ℕ) (input : HoleInput) : Option HoleWinner :=
  match input.teamAPlayerGross, input.teamBPlayerGross with
  | some ga, some gb =>
    let na := ga - (strokeFor m.teamAPlayers 0 k : ℤ)
    let nb := gb - (strokeFor m.teamBPlayers 0 k : ℤ)
    some (if na < nb then .teamA else if nb < na then .teamB else .AS)
  | _, _ => none

/-- Modelled from the spec (§4.3, scramble): compare the team gross
scores directly, no handicap strokes. -/
def decideScramble (input : HoleInput) : Option HoleWinner :=
  match input.teamAGross, input.teamBGross with
  | some ga, some gb =>
    some (if ga < gb then .teamA else if gb < ga then .teamB else .AS)
  | _, _ => none

/-- Modelled from the spec (§4.3, shamble): each team scores the minimum
gross of its two players, no strokes; any of the four scores missing
gives no decision. -/
def decideShamble (input : HoleInput) : Option HoleWinner :=
  match input.teamAPlayersGross, input.teamBPlayersGross with
  | some (some a1, some a2), some (some b1, some b2) =>
    let sa := min a1 a2
    let sb := min b1 b2
    some (if sa < sb then .teamA else if sb < sa then .teamB else .AS)
  | _, _ => none

/-- Modelled from the spec (§4.3, best-ball): like shamble but each
player's score is first netted with that player's stroke on the hole. -/
def decideBestBall (m : MatchData) (k : ℕ) (input : HoleInput) : Option HoleWinner :=
  match input.teamAPlayersGross, input.teamBPlayersGross with
  | some (some a1, some a2), some (some b1, some b2) =>
    let na := min (a1 - (strokeFor m.teamAPlayers 0 k : ℤ))
      (a2 - (strokeFor m.teamAPlayers 1 k : ℤ))
    let nb := min (b1 - (strokeFor m.teamBPlayers 0 k : ℤ))
      (b2 - (strokeFor m.teamBPlayers 1 k : ℤ))
    some (if na < nb then .teamA else if nb < na then .teamB else .AS)
  | _, _ => none

/-- Modelled from the spec (§4.3): `decideHole(format, holeNumber,
matchData)` — decide one hole per the format's rules, null when the
hole's input is missing or incomplete. -/
def decideHole (format : RoundFormat) (holeNumber : ℕ) (m : MatchData) : Option HoleWinner :=
  match lookupHole m holeNumber with
  | none => none
  | some input =>
    match format with
    | .singles => decideSingles m holeNumber input
    | .twoManScramble => decideScramble input
    | .twoManShamble => decideShamble input
    | .twoManBestBall => decideBestBall m holeNumber input

/-- Running tally of the summarizer's fold over the decided prefix. -/
structure Tally where
  holesWonA : ℕ := 0
  holesWonB : ℕ := 0
  thru : ℕ := 0
  marginHistory : List ℤ := []
  wasTeamAUp3PlusBack9 : Bool := false
  wasTeamADown3PlusBack9 : Bool := false
deriving DecidableEq

/-- Modelled from the spec (§4.4): fold the hole decisions in order,
stopping entirely at the first hole with no decision (the
contiguous-prefix rule); each decided hole bumps `thru`, credits the
winning side, appends the signed margin to the history, and from hole 10
on stickily records a ±3 margin. -/
def tallyHoles (format : RoundFormat) (m : MatchData) : List ℕ → Tally → Tally
  | [], t => t
  | k :: ks, t =>
    match decideHole format k m with
    | none => t
    | some d =>
      let wonA := t.holesWonA + (if d = HoleWinner.teamA then 1 else 0)
      let wonB := t.holesWonB + (if d = HoleWinner.teamB then 1 else 0)
      let thru := t.thru + 1
      let signed : ℤ := (wonA : ℤ) - (wonB : ℤ)
      let up3 := t.wasTeamAUp3PlusBack9 || (decide (10 ≤ thru) && decide ((3 : ℤ) ≤ signed))
      let down3 := t.wasTeamADown3PlusBack9 || (decide (10 ≤ thru) && decide (signed ≤ -3))
      tallyHoles format m ks ⟨wonA, wonB, thru, t.marginHistory ++ [signed], up3, down3⟩

/-- The leading side: whoever has won more holes, null when tied. -/
def matchLeader (t : Tally) : Option Team :=
  if t.holesWonB < t.holesWonA then some .teamA
  else if t.holesWonA < t.holesWonB then some .teamB
  else none

/-- The margin: the absolute difference in holes won. -/
def matchMargin (t : Tally) : ℕ :=
  ((t.holesWonA : ℤ) - (t.holesWonB : ℤ)).natAbs

/-- Modelled from the spec (§4.4 closing priority): closed at 18 holes
regardless of margin, or early when the margin exceeds the holes
remaining. -/
def matchClosed (t : Tally) : Bool :=
  decide (t.thru = 18) || decide (18 - t.thru < matchMargin t)

/-- Modelled from the spec (§4.4): dormie when not closed, the margin
equals the holes remaining, and the margin is positive. -/
def matchDormie (t : Tally) : Bool :=
  !matchClosed t && (decide (matchMargin t = 18 - t.thru) && decide (0 < matchMargin t))

/-- The winner field: the leader, or "AS" when there is none. -/
def matchWinner (t : Tally) : HoleWinner :=
  match matchLeader t with
  | some tm => tm.toWinner
  | none => .AS

/-- The summarizer's full output record (src/unnamed/part_000,
`MatchStatus` and `MatchResult` merged, as the tests read it). -/
structure MatchSummary where
  holesWonA : ℕ
  holesWonB : ℕ
  thru : ℕ
  leader : Option Team
  margin : ℕ
  dormie : Bool
  closed : Bool
  winner : HoleWinner
  wasTeamAUp3PlusBack9 : Bool
  wasTeamADown3PlusBack9 : Bool
  marginHistory : List ℤ
deriving DecidableEq

/-- Modelled from the spec (§4.4): `summarize(format, matchData)` — fold
holes 1..18 through the decision engine and derive leader, margin,
dormie/closed flags and winner. -/
def summarize (format : RoundFormat) (m : MatchData) : MatchSummary :=
  let t := tallyHoles format m (List.range' 1 18) {}
  { holesWonA := t.holesWonA
    holesWonB := t.holesWonB
    thru := t.thru
    leader := matchLeader t
    margin := matchMargin t
    dormie := matchDormie t
    closed := matchClosed t
    winner := matchWinner t
    wasTeamAUp3PlusBack9 := t.wasTeamAUp3PlusBack9
    wasTeamADown3PlusBack9 := t.wasTeamADown3PlusBack9
    marginHistory := t.marginHistory }

/-- Modelled from the spec (§6): parse a storage key as a stringified
(decimal) hole number; a key that is not a nonempty digit string is not a
hole number. -/
def parseHoleKey (s : String) : Option ℕ :=
  let cs := s.toList
  if cs ≠ [] ∧ cs.all (fun c => c.isDigit) then
    some (cs.foldl (fun n c => n * 10 + (c.toNat - Char.toNat '0')) 0)
  else none

/-- Modelled from the spec (§6, §9): `holesRange(holes)` — the keys of
the string-keyed `holes` map that are stringified hole numbers 1-18,
as numbers, in ascending order; stray storage keys are dropped. -/
def holesRange (holes : List (String × HoleEntry)) : List ℕ :=
  List.insertionSort (· ≤ ·)
    (((holes.map Prod.fst).filterMap parseHoleKey).filter
      (fun n => decide (1 ≤ n) && decide (n ≤ 18)))

theorem tallyHoles_thru_le (format : RoundFormat) (m : MatchData) :
    ∀ (ks : List ℕ) (t : Tally),
      (tallyHoles format m ks t).thru ≤ t.thru + ks.length := by
  intro ks
  induction ks with
  | nil => intro t; simp [tallyHoles]
  | cons k ks ih =>
    intro t
    cases hd : decideHole format k m with
    | none => simp [tallyHoles, hd]
    | some d =>
      simp only [tallyHoles, hd]
      refine le_trans (ih _) ?_
      simp only [List.length_cons]
      omega

theorem tallyHoles_won_le (format : RoundFormat) (m : MatchData) :
    ∀ (ks : List ℕ) (t : Tally), t.holesWonA + t.holesWonB ≤ t.thru →
      (tallyHoles format m ks t).holesWonA + (tallyHoles format m ks t).holesWonB
        ≤ (tallyHoles format m ks t).thru := by
  intro ks
  induction ks with
  | nil => intro t hle; simpa [tallyHoles] using hle
  | cons k ks ih =>
    intro t hle
    cases hd : decideHole format k m with
    | none => simpa [tallyHoles, hd] using hle
    | some d =>
      simp only [tallyHoles, hd]
      refine ih _ ?_
      have hone : (if d = HoleWinner.teamA then 1 else 0)
          + (if d = HoleWinner.teamB then 1 else 0) ≤ 1 := by
        cases d <;> simp
      simp only []
      omega

theorem tallyHoles_stop (format : RoundFormat) (m : MatchData) (k : ℕ)
    (hk : decideHole format k m = none) :
    ∀ (n i : ℕ) (t : Tally), i ≤ k →
      (tallyHoles format m (List.range' i n) t).thru ≤ t.thru + (k - i) := by
  intro n
  induction n with
  | zero => intro i t hi; simp [tallyHoles]
  | succ n ih =>
    intro i t hi
    rw [List.range'_succ]
    by_cases hik : i = k
    · subst hik
      simp [tallyHoles, hk]
    · have hik2 : i < k := lt_of_le_of_ne hi hik
      cases hd : decideHole format i m with
      | none => simp [tallyHoles, hd]
      | some d =>
        simp only [tallyHoles, hd]
        refine le_trans (ih (i + 1) _ (by omega)) ?_
        simp only []
        omega

theorem tallyHoles_agree (format : RoundFormat) (m m2 : MatchData) (k : ℕ)
    (hagree : ∀ j, 1 ≤ j → j < k → decideHole format j m = decideHole format j m2)
    (hnone : decideHole format k m = none) (hnone2 : decideHole format k m2 = none) :
    ∀ (n i : ℕ) (t : Tally), 1 ≤ i → i ≤ k →
      tallyHoles format m (List.range' i n) t = tallyHoles format m2 (List.range' i n) t := by
  intro n
  induction n with
  | zero => intro i t h1 hi; simp [tallyHoles]
  | succ n ih =>
    intro i t h1 hi
    rw [List.range'_succ]
    by_cases hik : i = k
    · subst hik
      simp [tallyHoles, hnone, hnone2]
    · have hik2 : i < k := lt_of_le_of_ne hi hik
      have heq := hagree i h1 hik2
      cases hd : decideHole format i m with
      | none =>
        have hd2 : decideHole format i m2 = none := by rw [← heq]; exact hd
        simp [tallyHoles, hd, hd2]
      | some d =>
        have hd2 : decideHole format i m2 = some d := by rw [← heq]; exact hd
        simp only [tallyHoles, hd, hd2]
        exact ih (i + 1) _ (by omega) (by omega)

theorem summarize_thru_le_18 (format : RoundFormat) (m : MatchData) :
    (tallyHoles format m (List.range' 1 18) {}).thru ≤ 18 := by
  have h := tallyHoles_thru_le format m (List.range' 1 18) {}
  simpa using h

theorem matchWinner_of_leader (t : Tally) (tm : Team) (h : matchLeader t = some tm) :
    matchWinner t = tm.toWinner := by
  simp [matchWinner, h]

theorem matchWinner_of_no_leader (t : Tally) (h : matchLeader t = none) :
    matchWinner t = HoleWinner.AS := by
  simp [matchWinner, h]

/-- Claim C1: `summarize` closes the match exactly when `thru = 18` or
the margin strictly exceeds the 18 − thru holes remaining; an early
closeout (closed before 18) always has a leader and names it the winner,
and at `thru = 18` the winner is the leader, or "AS" with no leader. -/
theorem summarize_closed_iff (format : RoundFormat) (m : MatchData) :
    ((summarize format m).closed = true ↔
      ((summarize format m).thru = 18 ∨
        (18 : ℤ) - (summarize format m).thru < (summarize format m).margin)) ∧
    ((summarize format m).closed = true → (summarize format m).thru ≠ 18 →
      ∃ tm, (summarize format m).leader = some tm ∧
        (summarize format m).winner = tm.toWinner) ∧
    ((summarize format m).thru = 18 →
      (∀ tm, (summarize format m).leader = some tm →
        (summarize format m).winner = tm.toWinner) ∧
      ((summarize format m).leader = none →
        (summarize format m).winner = HoleWinner.AS)) := by
  have h18 := summarize_thru_le_18 format m
  set t := tallyHoles format m (List.range' 1 18) {} with ht
  have hclosed : (summarize format m).closed = matchClosed t := rfl
  have hthru : (summarize format m).thru = t.thru := rfl
  have hmargin : (summarize format m).margin = matchMargin t := rfl
  have hleader : (summarize format m).leader = matchLeader t := rfl
  have hwinner : (summarize format m).winner = matchWinner t := rfl
  rw [hclosed, hthru, hmargin, hleader, hwinner]
  refine ⟨?_, ?_, ?_⟩
  · rw [matchClosed]
    simp only [Bool.or_eq_true, decide_eq_true_iff]
    omega
  · intro hcl hne
    rw [matchClosed] at hcl
    simp only [Bool.or_eq_true, decide_eq_true_iff] at hcl
    have hpos : 0 < matchMargin t := by omega
    rw [matchMargin] at hpos
    rcases Nat.lt_trichotomy t.holesWonA t.holesWonB with hab | hab | hab
    · have hl : matchLeader t = some Team.teamB := by
        simp [matchLeader, hab, Nat.not_lt_of_lt hab]
      exact ⟨Team.teamB, hl, matchWinner_of_leader t _ hl⟩
    · omega
    · have hl : matchLeader t = some Team.teamA := by
        simp [matchLeader, hab]
      exact ⟨Team.teamA, hl, matchWinner_of_leader t _ hl⟩
  · intro _
    exact ⟨fun tm h => matchWinner_of_leader t tm h, fun h => matchWinner_of_no_leader t h⟩

/-- Claim C2: `summarize` reports dormie exactly when the margin equals
the holes remaining, the margin is positive and the match is not closed;
hence dormie and closed are never both true. -/
theorem summarize_dormie_iff (format : RoundFormat) (m : MatchData) :
    ((summarize format m).dormie = true ↔
      (((summarize format m).margin : ℤ) = 18 - (summarize format m).thru ∧
        0 < (summarize format m).margin ∧ (summarize format m).closed = false)) ∧
    ¬((summarize format m).dormie = true ∧ (summarize format m).closed = true) := by
  have h18 := summarize_thru_le_18 format m
  set t := tallyHoles format m (List.range' 1 18) {} with ht
  have hclosed : (summarize format m).closed = matchClosed t := rfl
  have hthru : (summarize format m).thru = t.thru := rfl
  have hmargin : (summarize format m).margin = matchMargin t := rfl
  have hdormie : (summarize format m).dormie = matchDormie t := rfl
  rw [hclosed, hthru, hmargin, hdormie, matchDormie, matchClosed]
  simp only [Bool.and_eq_true, Bool.not_eq_true', Bool.or_eq_false_iff,
    Bool.or_eq_true, decide_eq_true_iff, decide_eq_false_iff_not, not_or]
  omega

/-- Claim C4: in every summary the holes won by the two sides total at
most `thru`, the margin is the absolute difference of the hole-won
counts, and the leader is null exactly on equal counts (otherwise it is
the side with the larger count). -/
theorem summarize_invariants (format : RoundFormat) (m : MatchData) :
    (summarize format m).holesWonA + (summarize format m).holesWonB
      ≤ (summarize format m).thru ∧
    (((summarize format m).margin : ℤ)
      = |((summarize format m).holesWonA : ℤ) - ((summarize format m).holesWonB : ℤ)|) ∧
    ((summarize format m).leader = none ↔
      (summarize format m).holesWonA = (summarize format m).holesWonB) ∧
    ((summarize format m).leader = some Team.teamA ↔
      (summarize format m).holesWonB < (summarize format m).holesWonA) ∧
    ((summarize format m).leader = some Team.teamB ↔
      (summarize format m).holesWonA < (summarize format m).holesWonB) := by
  set t := tallyHoles format m (List.range' 1 18) {} with ht
  have hA : (summarize format m).holesWonA = t.holesWonA := rfl
  have hB : (summarize format m).holesWonB = t.holesWonB := rfl
  have hthru : (summarize format m).thru = t.thru := rfl
  have hmargin : (summarize format m).margin = matchMargin t := rfl
  have hleader : (summarize format m).leader = matchLeader t := rfl
  rw [hA, hB, hthru, hmargin, hleader]
  refine ⟨?_, ?_, ?_, ?_, ?_⟩
  · exact tallyHoles_won_le format m (List.range' 1 18) {} (by simp)
  · rw [matchMargin, Int.abs_eq_natAbs]
  · rw [matchLeader]
    split_ifs with h1 h2 <;> simp <;> omega
  · rw [matchLeader]
    split_ifs with h1 h2 <;> simp <;> omega
  · rw [matchLeader]
    split_ifs with h1 h2 <;> simp <;> omega

/-- Claim C3: if hole `k` has no decision, the summary's `thru` stays
strictly below `k` no matter what later holes hold, and the whole summary
is unchanged by anything recorded past the first undecided hole: two
matches that agree on the decisions of holes `1..k-1` and are both
undecided at `k` summarize identically. -/
theorem summarize_contiguous (format : RoundFormat) (m m2 : MatchData) (k : ℕ)
    (hk1 : 1 ≤ k) (hk18 : k ≤ 18)
    (hagree : ∀ j, 1 ≤ j → j < k → decideHole format j m = decideHole format j m2)
    (hnone : decideHole format k m = none) (hnone2 : decideHole format k m2 = none) :
    (summarize format m).thru < k ∧ summarize format m = summarize format m2 := by
  constructor
  · have hstop := tallyHoles_stop format m k hnone 18 1 {} hk1
    have hthru : (summarize format m).thru
        = (tallyHoles format m (List.range' 1 18) {}).thru := rfl
    rw [hthru]
    simp only [] at hstop
    omega
  · have hag := tallyHoles_agree format m m2 k hagree hnone hnone2 18 1 {}
      (by omega) hk1
    rw [summarize, summarize, hag]

/-- Whether a shamble hole input carries all four player scores. -/
def shambleComplete (input : HoleInput) : Bool :=
  match input.teamAPlayersGross, input.teamBPlayersGross with
  | some (some _, some _), some (some _, some _) => true
  | _, _ => false

/-- Claim C5: the shamble decision scores each team with the minimum
gross of its two players — ties are "AS" — with handicap strokes having
no effect whatsoever (the players' `strokesReceived` arrays can be
replaced arbitrarily), and any of the four player scores missing makes
the hole undecided. -/
theorem decideHole_shamble_rules :
    (∀ (m : MatchData) (k : ℕ) (input : HoleInput) (a1 a2 b1 b2 : ℤ),
      lookupHole m k = some input →
      input.teamAPlayersGross = some (some a1, some a2) →
      input.teamBPlayersGross = some (some b1, some b2) →
      decideHole RoundFormat.twoManShamble k m
        = some (if min a1 a2 < min b1 b2 then HoleWinner.teamA
            else if min b1 b2 < min a1 a2 then HoleWinner.teamB
            else HoleWinner.AS)) ∧
    (∀ (m : MatchData) (k : ℕ) (input : HoleInput),
      lookupHole m k = some input → shambleComplete input = false →
      decideHole RoundFormat.twoManShamble k m = none) ∧
    (∀ (m : MatchData) (k : ℕ) (pA pB : List PlayerInMatch),
      decideHole RoundFormat.twoManShamble k
        { m with teamAPlayers := pA, teamBPlayers := pB }
        = decideHole RoundFormat.twoManShamble k m) := by
  refine ⟨?_, ?_, ?_⟩
  · intro m k input a1 a2 b1 b2 hlook hA hB
    rw [decideHole, hlook]
    simp only [decideShamble, hA, hB]
  · intro m k input hlook hcomp
    rw [decideHole, hlook]
    show decideShamble input = none
    rw [decideShamble]
    split
    · rename_i a1 a2 b1 b2 heqA heqB
      simp only [shambleComplete] at hcomp
      rw [heqA, heqB] at hcomp
      simp at hcomp
    · rfl
  · intro m k pA pB
    rfl

/-- Claim C10: `holesRange` yields exactly the keys of the holes map that
parse as hole numbers 1-18, as numbers in ascending order; keys such as
"0", "19" or non-numeric strings never appear, and the empty map gives
the empty list. -/
theorem holesRange_keys (holes : List (String × HoleEntry)) :
    List.Sorted (· ≤ ·) (holesRange holes) ∧
    (∀ n, n ∈ holesRange holes ↔
      ∃ kv ∈ holes, parseHoleKey kv.1 = some n ∧ 1 ≤ n ∧ n ≤ 18) ∧
    holesRange ([] : List (String × HoleEntry)) = [] := by
  refine ⟨List.sorted_insertionSort _ _, ?_, rfl⟩
  intro n
  constructor
  · intro h
    have h2 := (List.perm_insertionSort (· ≤ ·) _).mem_iff.mp h
    rw [List.mem_filter] at h2
    obtain ⟨h3, h4⟩ := h2
    rw [List.mem_filterMap] at h3
    obtain ⟨key, hk, hparse⟩ := h3
    rw [List.mem_map] at hk
    obtain ⟨kv, hkv, rfl⟩ := hk
    simp only [Bool.and_eq_true, decide_eq_true_iff] at h4
    exact ⟨kv, hkv, hparse, h4.1, h4.2⟩
  · rintro ⟨kv, hkv, hparse, h1, h18⟩
    apply (List.perm_insertionSort (· ≤ ·) _).mem_iff.mpr
    rw [List.mem_filter]
    exact ⟨List.mem_filterMap.mpr ⟨kv.1, List.mem_map.mpr ⟨kv, hkv, rfl⟩, hparse⟩,
      by simp [h1, h18]⟩

/-- An all-zero strokes array. -/
def zeroStrokes : List ℕ := List.replicate 18 0

/-- A complete singles hole entry with the two gross scores. -/
def singlesHole (ga gb : ℤ) : HoleEntry :=
  ⟨some { teamAPlayerGross := some ga, teamBPlayerGross := some gb }⟩

/-- Singles match where team A wins holes 1-10 by a stroke: a 10-up
early closeout with 8 to play. -/
def closedWitnessMatch : MatchData :=
  ⟨[⟨"a1", zeroStrokes⟩], [⟨"b1", zeroStrokes⟩],
   (List.range' 1 10).map (fun i => (toString i, singlesHole 4 5))⟩

/-- Singles match where team A wins holes 1-2 and holes 3-16 are halved:
2 up with 2 to play, dormie. -/
def dormieWitnessMatch : MatchData :=
  ⟨[⟨"a1", zeroStrokes⟩], [⟨"b1", zeroStrokes⟩],
   (List.range' 1 16).map (fun i => (toString i, singlesHole 4 (if i ≤ 2 then 5 else 4)))⟩

/-- Singles match with entries for holes 1 and 3 only: hole 2 is open. -/
def gapWitnessMatch : MatchData :=
  ⟨[⟨"a1", zeroStrokes⟩], [⟨"b1", zeroStrokes⟩],
   [("1", singlesHole 4 5), ("3", singlesHole 4 5)]⟩

/-- The same match with the stored hole 3 removed. -/
def holeOneOnlyMatch : MatchData :=
  ⟨[⟨"a1", zeroStrokes⟩], [⟨"b1", zeroStrokes⟩], [("1", singlesHole 4 5)]⟩

/-- A complete shamble hole input: team A 4 and 5, team B 5 and 6. -/
def shambleWitnessInput : HoleInput :=
  { teamAPlayersGross := some (some 4, some 5),
    teamBPlayersGross := some (some 5, some 6) }

/-- A shamble match on that hole whose team A players nominally hold a
stroke on every hole. -/
def shambleWitnessMatch : MatchData :=
  ⟨[⟨"p1", List.replicate 18 1⟩, ⟨"p2", List.replicate 18 1⟩],
   [⟨"p3", zeroStrokes⟩, ⟨"p4", zeroStrokes⟩],
   [("1", ⟨some shambleWitnessInput⟩)]⟩

/-- Claim C1, witness: the early-closeout clause applied to the 10-up
match; it is closed before 18 holes and names team A the winner. -/
theorem summarize_closed_iff_witness :
    ∃ tm, (summarize RoundFormat.singles closedWitnessMatch).leader = some tm ∧
      (summarize RoundFormat.singles closedWitnessMatch).winner = tm.toWinner :=
  (summarize_closed_iff RoundFormat.singles closedWitnessMatch).2.1
    (by decide) (by decide)

/-- Claim C2, witness: the dormie characterization applied to the 2-up
with-2-to-play match. -/
theorem summarize_dormie_iff_witness :
    (summarize RoundFormat.singles dormieWitnessMatch).dormie = true :=
  (summarize_dormie_iff RoundFormat.singles dormieWitnessMatch).1.mpr (by decide)

/-- Claim C3, witness: with hole 2 undecided, `thru` stays below 2 and
the stored hole 3 contributes nothing. -/
theorem summarize_contiguous_witness :
    (summarize RoundFormat.singles gapWitnessMatch).thru < 2 ∧
      summarize RoundFormat.singles gapWitnessMatch
        = summarize RoundFormat.singles holeOneOnlyMatch :=
  summarize_contiguous RoundFormat.singles gapWitnessMatch holeOneOnlyMatch 2
    (by norm_num) (by norm_num)
    (by
      intro j h1 h2
      have hj : j = 1 := by omega
      subst hj
      decide)
    (by decide) (by decide)

/-- Claim C5, witness: the best-gross rule applied on the concrete
shamble hole (4∧5 against 5∧6, team A wins). -/
theorem decideHole_shamble_rules_witness :
    decideHole RoundFormat.twoManShamble 1 shambleWitnessMatch
      = some (if min (4 : ℤ) 5 < min 5 6 then HoleWinner.teamA
          else if min (5 : ℤ) 6 < min 4 5 then HoleWinner.teamB
          else HoleWinner.AS) :=
  decideHole_shamble_rules.1 shambleWitnessMatch 1 shambleWitnessInput 4 5 5 6
    (by decide) (by decide) (by decide)

end Jared40th
